import Mathlib

/-!
Verification of the shnorky flow orchestrator against its design document.

The definitions below are shallow embeddings of the Go source:

* `FlowSpecification`, `ValidateSpecification`, `CalculateStages` embed
  `flows/configuration.go` (the current snapshot, lines 224-396).  Go maps
  (`map[string]string`, `map[string][]string`) are embedded as association
  lists; Go's nondeterministic map-iteration order is fixed to list order,
  which is sound for the properties below because they are all insensitive
  to the order of steps within a stage.
* `waitForStage` embeds the per-stage supervision loop of `flows.Execute`
  (`flows/flow.go`, lines 264-291).
* `executeTrace` embeds the effect sequence of `components.Execute`
  (`execute_build`), and `mergedEnv` / `containerEnv` embed its container
  environment construction.
* `executionsTableColumns` and the `insertExecution*Columns` lists embed the
  SQL text of `state/statements.go` and `components/state.go`.
* `MaterializeEnv` embeds the substitution helper of
  `components/specification.go`; Go strings are embedded as `List Char`
  (the `"env:"` prefix is pure ASCII, so Go's byte indexing and the
  character indexing used here agree on the prefix test and on the
  remainder).
* `BuildMetadata` rows and `SelectMostRecentBuildForComponent` embed the
  builds table and the query
  `SELECT * FROM builds WHERE component_id=? ORDER BY created_at DESC LIMIT 1;`
  of `components/state.go`; the row store is embedded as a list of rows and
  the query as filtering followed by selection of a row with maximal
  `created_at` (ties resolved to the earliest row, which is one of the
  behaviours SQLite permits; the theorems below do not depend on the
  tie-break).
-/

/-! ### Flow specifications and the stage scheduler (`flows/configuration.go`) -/

/-- Embedding of `flows.FlowSpecification` (the fields the scheduler reads).
`Steps` maps step names to component ids; `Dependencies` maps a step name to
the names of the steps it depends on. -/
structure FlowSpecification where
  steps : List (String × String)
  dependencies : List (String × List String)

/-- The only error `CalculateStages` can produce (`ErrCyclicDependency`). -/
inductive FlowError where
  | cyclicDependency
  deriving DecidableEq, Repr

/-- The set of step names of a specification (the keys of `Steps`). -/
def stepNames (spec : FlowSpecification) : List String :=
  spec.steps.map Prod.fst

/-- Embedding of `ValidateSpecification` (`flows/configuration.go` lines
246-265 / 96-118): every step maps to a non-empty component id, every
dependency key is a step, and every dependency value is a step.  The Go code
reports the first violation it encounters while iterating; acceptance
(`.ok ()`) is the conjunction of the three checks, which is all the theorems
below use. -/
def ValidateSpecification (spec : FlowSpecification) : Except String Unit :=
  if !(spec.steps.all fun p => p.2 != "") then
    .error "Invalid component for step"
  else if !(spec.dependencies.all fun p => (spec.steps.lookup p.1).isSome) then
    .error "Unknown step in dependencies"
  else if !(spec.dependencies.all fun p =>
      p.2.all fun dep => (spec.steps.lookup dep).isSome) then
    .error "Unknown dependency for step"
  else
    .ok ()

/-- The test deciding membership in `initialSteps` (`configuration.go` lines
344-350): a step with no `Dependencies` entry, or an empty one, is initial. -/
def noDeps (spec : FlowSpecification) (step : String) : Bool :=
  match spec.dependencies.lookup step with
  | none => true
  | some deps => deps.length == 0

/-- The `initialSteps` set of one round of `CalculateStages` (lines 344-361);
in the Go code it is materialized as `map[string]bool` and then copied into
the `currentStage` slice. -/
def initialStepsOf (spec : FlowSpecification) : List String :=
  (stepNames spec).filter (noDeps spec)

/-- The reduced specification passed to the recursive call (`nextSteps` and
`nextDependencies`, lines 363-386): steps outside `initialSteps`, with each
surviving dependency list filtered to drop members of `initialSteps`.
For a step with no `Dependencies` entry Go indexes the map at its zero value
(`nil`), embedded here with `Option.getD []`. -/
def reducedSpec (spec : FlowSpecification) (initialSteps : List String) : FlowSpecification :=
  let nextSteps := spec.steps.filter fun p => !(initialSteps.contains p.1)
  { steps := nextSteps
    dependencies := nextSteps.map fun p =>
      (p.1, ((spec.dependencies.lookup p.1).getD []).filter fun dep =>
        !(initialSteps.contains dep)) }

/-- One-step body of `CalculateStages` with an explicit recursion bound.
The Go function recurses on a strictly smaller `Steps` map, so
`spec.steps.length` bounds the recursion depth; the `fuel = 0` branch is
unreachable whenever `spec.steps.length ≤ fuel` (proved below), and the
wrapper `CalculateStages` always starts with enough fuel.  The Go function
returns the pair (stages, error); both error returns carry the empty stage
list, exactly as `return [][]string{}, ErrCyclicDependency` does. -/
def calculateStagesAux : Nat → FlowSpecification → List (List String) × Option FlowError
  | 0, spec =>
    if spec.steps.length = 0 then ([], none)
    else ([], some FlowError.cyclicDependency)
  | fuel + 1, spec =>
    if spec.steps.length = 0 then ([], none)
    else if (initialStepsOf spec).length = 0 then ([], some FlowError.cyclicDependency)
    else
      match calculateStagesAux fuel (reducedSpec spec (initialStepsOf spec)) with
      | (_, some e) => ([], some e)
      | (downstream, none) => (initialStepsOf spec :: downstream, none)

/-- Embedding of `CalculateStages` (`flows/configuration.go` lines 338-396). -/
def CalculateStages (spec : FlowSpecification) : List (List String) × Option FlowError :=
  calculateStagesAux spec.steps.length spec

/-- The dependency relation of a specification: `dependsOn spec a b` holds
when `b` appears in the dependency list of `a` (the list `CalculateStages`
reads through `specification.Dependencies[a]`). -/
@[reducible] def dependsOn (spec : FlowSpecification) (a b : String) : Prop :=
  b ∈ (spec.dependencies.lookup a).getD []

/-- The dependency graph contains a directed cycle: a nonempty edge path
`a → x₁ → ⋯ → a` returning to its start.  A self-dependency is the case
`l = []`. -/
def hasCycle (spec : FlowSpecification) : Prop :=
  ∃ a l, List.Chain (dependsOn spec) a (l ++ [a])

/-- One outgoing dependency edge of a step: the first entry of its
dependency list.  Used only in proofs (to extract a cycle from a round of
`CalculateStages` in which no step is initial). -/
def nextStep (spec : FlowSpecification) (s : String) : String :=
  ((spec.dependencies.lookup s).getD []).head!

/-- The diamond example of the design document:
`steps = a,b,c,d`, `deps = b:[a], c:[a], d:[b,c]`. -/
def diamondSpec : FlowSpecification :=
  { steps := [("a", "ca"), ("b", "cb"), ("c", "cc"), ("d", "cd")]
    dependencies := [("b", ["a"]), ("c", ["a"]), ("d", ["b", "c"])] }

/-- The mutual-cycle example of the design document: `deps = a:[b], b:[a]`. -/
def mutualCycleSpec : FlowSpecification :=
  { steps := [("a", "ca"), ("b", "cb")]
    dependencies := [("a", ["b"]), ("b", ["a"])] }

/-! ### Stage supervision of `flows.Execute` (`flows/flow.go` lines 264-291) -/

/-- The eventual observation the supervision loop makes about one container:
`ContainerInspect` either errors, or eventually reports the container as not
running together with its exit code.  The Go loop busy-polls `continue`
while `info.State.Running`; the poll terminates exactly when one of these
two observations is available, so the loop is embedded by its terminal
observation. -/
inductive InspectResult where
  | err
  | exited (code : Int)
  deriving DecidableEq, Repr

/-- How the supervision of one stage ends (`flows/flow.go` lines 276-291):
either every awaited container exited with code 0, or the loop returned on
an inspect error, or on the first non-zero exit code it observed. -/
inductive StepOutcome where
  | ok
  | inspectError (step : String)
  | nonZeroExit (step : String) (code : Int)
  deriving DecidableEq, Repr

/-- Embedding of the per-stage wait loop of `flows.Execute` (lines 276-291).
The loop iterates over the stage's executions (map iteration order is fixed
to list order here), polls each container until it is not running, `break`s
to the next step on exit code 0, and `return`s on an inspect error or a
non-zero exit code.  The result records the outcome together with the list
of steps whose containers were actually awaited before the loop ended. -/
def waitForStage (inspect : String → InspectResult) :
    List String → StepOutcome × List String
  | [] => (.ok, [])
  | step :: rest =>
    match inspect step with
    | .err => (.inspectError step, [step])
    | .exited code =>
      if code = 0 then
        let r := waitForStage inspect rest
        (r.1, step :: r.2)
      else
        (.nonZeroExit step code, [step])

/-- A stage of two steps whose containers both exit with non-zero codes
(1 and 2 respectively). -/
def twoFailuresInspect : String → InspectResult :=
  fun s => if s = "s1" then .exited 1 else .exited 2

/-! ### Effect order of `components.Execute` (`execute_build`, part_011) -/

/-- The externally visible effects of the tail of `components.Execute`:
`ContainerCreate` (line 146), `InsertExecution` (line 151) and
`ContainerStart` (line 156). -/
inductive ExecEvent where
  | containerCreate
  | insertExecution
  | containerStart
  deriving DecidableEq, Repr

/-- Outcomes of the external calls `components.Execute` makes, in program
order: the database and specification lookups (lines 68-93), then container
creation, execution-row insertion and container start (lines 146-159).
`true` means the call succeeds. -/
structure ExecuteCalls where
  selectBuildOk : Bool
  generateMetadataOk : Bool
  selectComponentOk : Bool
  readSpecOk : Bool
  materializeOk : Bool
  containerCreateOk : Bool
  insertExecutionOk : Bool
  containerStartOk : Bool

/-- The sequence of container/database effects `components.Execute` performs
under the given call outcomes, following the early-return structure of the
Go function: each failing call makes the function return immediately with an
error, and an event is recorded when the corresponding call is issued
(whether or not it succeeds). -/
def executeTrace (c : ExecuteCalls) : List ExecEvent :=
  if !c.selectBuildOk then []
  else if !c.generateMetadataOk then []
  else if !c.selectComponentOk then []
  else if !c.readSpecOk then []
  else if !c.materializeOk then []
  else if !c.containerCreateOk then [.containerCreate]
  else if !c.insertExecutionOk then [.containerCreate, .insertExecution]
  else [.containerCreate, .insertExecution, .containerStart]

/-- `components.Execute` returns without error exactly when every call
succeeds. -/
def executeSucceeds (c : ExecuteCalls) : Bool :=
  c.selectBuildOk && c.generateMetadataOk && c.selectComponentOk &&
    c.readSpecOk && c.materializeOk && c.containerCreateOk &&
    c.insertExecutionOk && c.containerStartOk

/-- After `components.Execute` returns, the `executions` row exists exactly
when the insert was reached and committed (`InsertExecution` wraps the
insert in a transaction that rolls back on error). -/
def executionRowExists (c : ExecuteCalls) : Bool :=
  c.selectBuildOk && c.generateMetadataOk && c.selectComponentOk &&
    c.readSpecOk && c.materializeOk && c.containerCreateOk &&
    c.insertExecutionOk

/-- Call outcomes in which everything up to and including container creation
succeeds but the execution-row insert fails. -/
def insertFailsCalls : ExecuteCalls :=
  { selectBuildOk := true, generateMetadataOk := true, selectComponentOk := true
    readSpecOk := true, materializeOk := true, containerCreateOk := true
    insertExecutionOk := false, containerStartOk := false }

/-- Call outcomes in which every call succeeds. -/
def allOkCalls : ExecuteCalls :=
  { selectBuildOk := true, generateMetadataOk := true, selectComponentOk := true
    readSpecOk := true, materializeOk := true, containerCreateOk := true
    insertExecutionOk := true, containerStartOk := true }

/-! ### Container environment construction (`components.Execute` lines 100-115) -/

/-- Go map assignment `m[k] = v` on an association-list embedding of
`map[string]string`: replace the value if the key is present, append
otherwise. -/
def mapInsert (m : List (String × String)) (k v : String) : List (String × String) :=
  if m.any fun p => p.1 == k then
    m.map fun p => if p.1 == k then (k, v) else p
  else
    m ++ [(k, v)]

/-- The `finalEnv` map of `components.Execute` (lines 105-111): start from
an empty map, copy in every entry of the materialized specification's
`Run.Env`, then copy in every entry of the caller-supplied `env` argument,
so the caller's value wins on common keys. -/
def mergedEnv (specEnv env : List (String × String)) : List (String × String) :=
  env.foldl (fun m p => mapInsert m p.1 p.2)
    (specEnv.foldl (fun m p => mapInsert m p.1 p.2) [])

/-- One merged entry rendered as Go's `fmt.Sprintf` with a `%s=%s` format
does (line 113). -/
def envString (p : String × String) : String :=
  p.1 ++ "=" ++ p.2

/-- The indexed write loop over `containerConfig.Env` (lines 112-115):
write each entry at consecutive indices `i`, `i+1`, …; a write at an index
outside the slice is Go's out-of-range panic, embedded as `none`. -/
def fillEnv : List String → Nat → List (String × String) → Option (List String)
  | arr, _, [] => some arr
  | arr, i, p :: rest =>
    if i < arr.length then
      fillEnv (arr.set i (envString p)) (i + 1) rest
    else
      none

/-- The `containerConfig.Env` slice `components.Execute` passes to
`ContainerCreate`: allocated with `make([]string, len(specification.Run.Env))`
(line 100) and then filled from `finalEnv` by the indexed write loop.
`none` is the out-of-range panic. -/
def containerEnv (specEnv env : List (String × String)) : Option (List String) :=
  fillEnv (List.replicate specEnv.length "") 0 (mergedEnv specEnv env)

/-! ### The executions table schema (`state/statements.go`) versus
`InsertExecution` (`components/state.go`) -/

/-- The columns of the `executions` table as the `createTables` script of
`state/statements.go` (lines 30-35) declares them, each with its NOT NULL
flag. -/
def executionsTableColumns : List (String × Bool) :=
  [("id", true), ("execution_type", true), ("target_id", true), ("created_at", true)]

/-- The column list of `insertExecutionWithNoFlowID`
(`components/state.go` line 88). -/
def insertExecutionWithNoFlowIDColumns : List String :=
  ["id", "build_id", "component_id", "created_at"]

/-- The column list of `insertExecution` (`components/state.go` line 89). -/
def insertExecutionColumns : List String :=
  ["id", "build_id", "component_id", "created_at", "flow_id"]

/-- The executions-table columns the design document specifies:
`executions(id PK, build_id, component_id, created_at, flow_id NULLABLE)`.
Modelled from the spec: this is the schema the claim asserts `createTables`
produces. -/
def specExecutionsTableColumns : List (String × Bool) :=
  [("id", true), ("build_id", true), ("component_id", true),
    ("created_at", true), ("flow_id", false)]

/-- Whether SQLite accepts an INSERT naming the columns `cols` against a
table with column declarations `table`: every named column must exist, and
every NOT NULL column (none of the tables here declares defaults) must be
named. -/
def insertAccepted (table : List (String × Bool)) (cols : List String) : Bool :=
  (cols.all fun c => table.any fun t => t.1 == c) &&
    (table.all fun t => !t.2 || cols.contains t.1)

/-! ### Environment substitution (`components/specification.go` lines 159-174) -/

/-- `SpecialPrefixEnv = "env:"`, as a character list (the Go code slices the
string by bytes; the prefix is ASCII, so byte and character indexing
agree). -/
def SpecialPrefixEnv : List Char :=
  ['e', 'n', 'v', ':']

/-- Embedding of `MaterializeEnv` (lines 169-174), parametrized by the host
environment: `getenv` is `os.Getenv`, with `none` meaning the variable is
unset, which `os.Getenv` renders as the empty string. -/
def MaterializeEnv (getenv : List Char → Option (List Char)) (rawValue : List Char) :
    List Char :=
  if SpecialPrefixEnv.length ≤ rawValue.length ∧
      rawValue.take SpecialPrefixEnv.length = SpecialPrefixEnv then
    (getenv (rawValue.drop SpecialPrefixEnv.length)).getD []
  else
    rawValue

/-! ### Latest-build selection (`components/state.go` lines 85, 202-219) -/

/-- Embedding of `components.BuildMetadata` as stored in the `builds` table
(`created_at` is stored as Unix seconds, an integer). -/
structure BuildMetadata where
  id : String
  componentID : String
  createdAt : Int
  deriving DecidableEq, Repr

/-- `ErrBuildNotFound` (`components/state.go` line 74). -/
inductive StateError where
  | buildNotFound
  deriving DecidableEq, Repr

/-- The row produced by
`SELECT * FROM builds WHERE component_id=? ORDER BY created_at DESC LIMIT 1;`
over a list embedding of the `builds` table: among the rows matching the
component id, a row with maximal `created_at` (SQLite leaves the choice
among ties unspecified; this embedding keeps the earliest such row, and no
theorem below depends on the tie-break). -/
def laterBuild (acc : Option BuildMetadata) (b : BuildMetadata) : Option BuildMetadata :=
  match acc with
  | none => some b
  | some best => if best.createdAt < b.createdAt then some b else some best

/-- The single-row result of the latest-build query: the fold keeps the row
with the greatest `created_at` among the rows matching the component id. -/
def mostRecentBuildRow (builds : List BuildMetadata) (componentID : String) :
    Option BuildMetadata :=
  (builds.filter fun b => b.componentID == componentID).foldl laterBuild none

/-- Embedding of `SelectMostRecentBuildForComponent` (`components/state.go`
lines 204-219): scan the single row of the query above, returning
`ErrBuildNotFound` when the result set is empty.  (The Go code also
re-checks that the scanned row's `component_id` equals the argument, which
the WHERE clause already guarantees.) -/
def SelectMostRecentBuildForComponent (builds : List BuildMetadata)
    (componentID : String) : Except StateError BuildMetadata :=
  match mostRecentBuildRow builds componentID with
  | none => .error .buildNotFound
  | some b => .ok b

/-- A small builds table used to instantiate the latest-build theorem. -/
def sampleBuilds : List BuildMetadata :=
  [⟨"shnorky/c1:100", "c1", 100⟩, ⟨"shnorky/c2:150", "c2", 150⟩,
    ⟨"shnorky/c1:200", "c1", 200⟩, ⟨"shnorky/c1:180", "c1", 180⟩]

/-! ### Lemmas about the stage scheduler -/

theorem mem_stepNames_iff_lookup {spec : FlowSpecification} {a : String} :
    a ∈ stepNames spec ↔ (spec.steps.lookup a).isSome := by
  rw [List.lookup_isSome_iff]
  constructor
  · intro h
    obtain ⟨p, hp, hpa⟩ := List.mem_map.mp h
    exact ⟨p, hp, by simp [hpa]⟩
  · rintro ⟨p, hp, hpa⟩
    exact List.mem_map.mpr ⟨p, hp, (beq_iff_eq.mp hpa).symm⟩

theorem mem_of_lookup_eq_some {l : List (String × α)} {a : String} {b : α}
    (h : l.lookup a = some b) : (a, b) ∈ l := by
  obtain ⟨l₁, l₂, rfl, -⟩ := List.lookup_eq_some_iff.mp h
  exact List.mem_append.mpr (Or.inr (List.mem_cons_self _ _))

theorem lookup_map_pair (l : List (String × α)) (f : String → β) (a : String)
    (ha : a ∈ l.map Prod.fst) :
    (l.map fun p => (p.1, f p.1)).lookup a = some (f a) := by
  induction l with
  | nil => simp at ha
  | cons q t ih =>
    simp only [List.map_cons, List.lookup_cons]
    rcases hq : a == q.1 with _ | _
    · refine ih ?_
      rcases List.mem_map.mp ha with ⟨p, hp, hpa⟩
      rcases List.mem_cons.mp hp with rfl | hpt
      · simp [hpa] at hq
      · exact List.mem_map.mpr ⟨p, hpt, hpa⟩
    · rw [beq_iff_eq.mp hq]

theorem mem_initialStepsOf {spec : FlowSpecification} {s : String} :
    s ∈ initialStepsOf spec ↔ s ∈ stepNames spec ∧ noDeps spec s = true := by
  simp [initialStepsOf, List.mem_filter]

theorem noDeps_eq_false_of_dependsOn {spec : FlowSpecification} {a b : String}
    (h : dependsOn spec a b) : noDeps spec a = false := by
  unfold dependsOn at h
  unfold noDeps
  cases hl : spec.dependencies.lookup a with
  | none => rw [hl] at h; simp at h
  | some deps =>
    rw [hl] at h
    simp only [Option.getD_some] at h
    have hne : deps ≠ [] := List.ne_nil_of_mem h
    simp [List.length_eq_zero, hne]

theorem not_mem_initial_of_dependsOn {spec : FlowSpecification} {a b : String}
    (h : dependsOn spec a b) : a ∉ initialStepsOf spec := by
  intro hmem
  have := (mem_initialStepsOf.mp hmem).2
  rw [noDeps_eq_false_of_dependsOn h] at this
  exact Bool.false_ne_true this

theorem map_fst_filter_key (l : List (String × α)) (q : String → Bool) :
    (l.filter fun p => q p.1).map Prod.fst = (l.map Prod.fst).filter q := by
  induction l with
  | nil => rfl
  | cons p t ih => by_cases h : q p.1 <;> simp [List.filter_cons, h, ih]

theorem reduced_stepNames (spec : FlowSpecification) (I : List String) :
    stepNames (reducedSpec spec I)
      = (stepNames spec).filter fun s => !(I.contains s) := by
  dsimp only [stepNames, reducedSpec]
  exact map_fst_filter_key spec.steps fun s => !(I.contains s)

theorem reduced_lookup (spec : FlowSpecification) (I : List String) (a : String)
    (ha : a ∈ stepNames (reducedSpec spec I)) :
    (reducedSpec spec I).dependencies.lookup a
      = some (((spec.dependencies.lookup a).getD []).filter fun dep =>
          !(I.contains dep)) := by
  have ha' : a ∈ (spec.steps.filter fun p => !(I.contains p.1)).map Prod.fst := by
    rw [reduced_stepNames] at ha
    dsimp only [stepNames] at ha
    rw [map_fst_filter_key spec.steps fun s => !(I.contains s)]
    exact ha
  dsimp only [reducedSpec]
  exact lookup_map_pair (spec.steps.filter fun p => !(I.contains p.1))
    (fun t => ((spec.dependencies.lookup t).getD []).filter fun dep => !(I.contains dep))
    a ha'

theorem contains_initial_eq (spec : FlowSpecification) {s : String}
    (hs : s ∈ stepNames spec) :
    (initialStepsOf spec).contains s = noDeps spec s := by
  cases hnd : noDeps spec s with
  | true =>
    have : s ∈ initialStepsOf spec := mem_initialStepsOf.mpr ⟨hs, hnd⟩
    simpa using this
  | false =>
    have : s ∉ initialStepsOf spec := fun hm => by
      have := (mem_initialStepsOf.mp hm).2; rw [hnd] at this; exact Bool.false_ne_true this
    simpa using this

theorem initial_append_reduced_perm (spec : FlowSpecification) :
    (initialStepsOf spec
        ++ stepNames (reducedSpec spec (initialStepsOf spec))).Perm
      (stepNames spec) := by
  rw [reduced_stepNames]
  have hcongr : ((stepNames spec).filter fun s => !((initialStepsOf spec).contains s))
      = (stepNames spec).filter fun s => !(noDeps spec s) :=
    List.filter_congr fun s hs => by rw [contains_initial_eq spec hs]
  rw [hcongr]
  exact List.filter_append_perm (noDeps spec) (stepNames spec)

theorem reduced_length_lt (spec : FlowSpecification)
    (h : initialStepsOf spec ≠ []) :
    (reducedSpec spec (initialStepsOf spec)).steps.length < spec.steps.length := by
  obtain ⟨s, hs⟩ := List.exists_mem_of_ne_nil _ h
  have hs' : s ∈ stepNames spec := List.mem_of_mem_filter hs
  obtain ⟨p, hp, rfl⟩ := List.mem_map.mp hs'
  have : (spec.steps.filter fun q => !((initialStepsOf spec).contains q.1)).length
      < spec.steps.length :=
    List.length_filter_lt_length_iff_exists.mpr ⟨p, hp, by simpa using hs⟩
  simpa [reducedSpec] using this

theorem aux_join_perm : ∀ (fuel : Nat) (spec : FlowSpecification)
    (stages : List (List String)),
    spec.steps.length ≤ fuel →
    calculateStagesAux fuel spec = (stages, none) →
    stages.flatten.Perm (stepNames spec) := by
  intro fuel
  induction fuel with
  | zero =>
    intro spec stages hle h
    have h0 : spec.steps.length = 0 := Nat.le_zero.mp hle
    rw [calculateStagesAux, if_pos h0] at h
    cases h
    simp [stepNames, List.length_eq_zero.mp h0]
  | succ fuel ih =>
    intro spec stages hle h
    rw [calculateStagesAux] at h
    by_cases h0 : spec.steps.length = 0
    · rw [if_pos h0] at h
      cases h
      simp [stepNames, List.length_eq_zero.mp h0]
    · rw [if_neg h0] at h
      by_cases hI : (initialStepsOf spec).length = 0
      · rw [if_pos hI] at h
        simp at h
      · rw [if_neg hI] at h
        rcases hc : calculateStagesAux fuel (reducedSpec spec (initialStepsOf spec))
          with ⟨down, e⟩
        rw [hc] at h
        cases e with
        | some e₀ => simp at h
        | none =>
          have hstages : stages = initialStepsOf spec :: down := by
            cases h; rfl
          subst hstages
          have hlt : (reducedSpec spec (initialStepsOf spec)).steps.length ≤ fuel := by
            have := reduced_length_lt spec (fun hnil => hI (by simp [hnil]))
            omega
          have hdown := ih (reducedSpec spec (initialStepsOf spec)) down hlt hc
          have hflat : (initialStepsOf spec :: down).flatten
              = initialStepsOf spec ++ down.flatten := by simp
          rw [hflat]
          exact (List.Perm.append_left _ hdown).trans (initial_append_reduced_perm spec)

theorem validate_ok_iff {spec : FlowSpecification} :
    ValidateSpecification spec = .ok ()
      ↔ (∀ p ∈ spec.steps, p.2 ≠ "")
        ∧ (∀ p ∈ spec.dependencies, p.1 ∈ stepNames spec)
        ∧ ∀ p ∈ spec.dependencies, ∀ d ∈ p.2, d ∈ stepNames spec := by
  unfold ValidateSpecification
  constructor
  · intro h
    split_ifs at h with h1 h2 h3
    rw [Bool.not_eq_true, Bool.not_eq_false'] at h1 h2 h3
    refine ⟨?_, ?_, ?_⟩
    · intro p hp
      have := List.all_eq_true.mp h1 p hp
      simpa using this
    · intro p hp
      exact mem_stepNames_iff_lookup.mpr (List.all_eq_true.mp h2 p hp)
    · intro p hp d hd
      exact mem_stepNames_iff_lookup.mpr
        (List.all_eq_true.mp (List.all_eq_true.mp h3 p hp) d hd)
  · rintro ⟨h1, h2, h3⟩
    have c1 : spec.steps.all (fun p => p.2 != "") = true :=
      List.all_eq_true.mpr fun p hp => by simpa using h1 p hp
    have c2 : (spec.dependencies.all fun p => (spec.steps.lookup p.1).isSome) = true :=
      List.all_eq_true.mpr fun p hp => mem_stepNames_iff_lookup.mp (h2 p hp)
    have c3 : (spec.dependencies.all fun p =>
        p.2.all fun dep => (spec.steps.lookup dep).isSome) = true :=
      List.all_eq_true.mpr fun p hp =>
        List.all_eq_true.mpr fun d hd => mem_stepNames_iff_lookup.mp (h3 p hp d hd)
    simp [c1, c2, c3]

theorem mem_stepNames_of_dependsOn {spec : FlowSpecification} {a b : String}
    (hv : ValidateSpecification spec = .ok ()) (h : dependsOn spec a b) :
    a ∈ stepNames spec := by
  unfold dependsOn at h
  cases hl : spec.dependencies.lookup a with
  | none => rw [hl] at h; simp at h
  | some deps =>
    exact (validate_ok_iff.mp hv).2.1 (a, deps) (mem_of_lookup_eq_some hl)

theorem dep_mem_stepNames {spec : FlowSpecification} {a b : String}
    (hv : ValidateSpecification spec = .ok ()) (h : dependsOn spec a b) :
    b ∈ stepNames spec := by
  unfold dependsOn at h
  cases hl : spec.dependencies.lookup a with
  | none => rw [hl] at h; simp at h
  | some deps =>
    rw [hl] at h
    simp only [Option.getD_some] at h
    exact (validate_ok_iff.mp hv).2.2 (a, deps) (mem_of_lookup_eq_some hl) b h

theorem validate_reduced {spec : FlowSpecification}
    (hv : ValidateSpecification spec = .ok ()) :
    ValidateSpecification (reducedSpec spec (initialStepsOf spec)) = .ok () := by
  obtain ⟨h1, h2, h3⟩ := validate_ok_iff.mp hv
  refine validate_ok_iff.mpr ⟨?_, ?_, ?_⟩
  · intro p hp
    exact h1 p (List.mem_of_mem_filter hp)
  · intro p hp
    obtain ⟨q, hq, rfl⟩ := List.mem_map.mp hp
    rw [reduced_stepNames]
    have hq' := List.mem_filter.mp hq
    exact List.mem_filter.mpr ⟨List.mem_map.mpr ⟨q, hq'.1, rfl⟩, hq'.2⟩
  · intro p hp d hd
    obtain ⟨q, hq, rfl⟩ := List.mem_map.mp hp
    simp only at hd
    have hd' := List.mem_filter.mp hd
    have hdep : dependsOn spec q.1 d := hd'.1
    have hmem : d ∈ stepNames spec := dep_mem_stepNames hv hdep
    rw [reduced_stepNames]
    exact List.mem_filter.mpr ⟨hmem, hd'.2⟩

theorem aux_stage_order : ∀ (fuel : Nat) (spec : FlowSpecification)
    (stages : List (List String)),
    spec.steps.length ≤ fuel →
    ValidateSpecification spec = .ok () →
    calculateStagesAux fuel spec = (stages, none) →
    ∀ step dep, dependsOn spec step dep →
    ∀ i j, ∀ (hi : i < stages.length) (hj : j < stages.length),
      step ∈ stages[i] → dep ∈ stages[j] → j < i := by
  intro fuel
  induction fuel with
  | zero =>
    intro spec stages hle hv h step dep hd i j hi hj hstep hdep
    have h0 : spec.steps.length = 0 := Nat.le_zero.mp hle
    rw [calculateStagesAux, if_pos h0] at h
    cases h
    simp at hi
  | succ fuel ih =>
    intro spec stages hle hv h step dep hd i j hi hj hstep hdep
    rw [calculateStagesAux] at h
    by_cases h0 : spec.steps.length = 0
    · rw [if_pos h0] at h; cases h; simp at hi
    · rw [if_neg h0] at h
      by_cases hI : (initialStepsOf spec).length = 0
      · rw [if_pos hI] at h; simp at h
      · rw [if_neg hI] at h
        rcases hc : calculateStagesAux fuel (reducedSpec spec (initialStepsOf spec))
          with ⟨down, e⟩
        rw [hc] at h
        cases e with
        | some e₀ => simp at h
        | none =>
          have hstages : stages = initialStepsOf spec :: down := by cases h; rfl
          subst hstages
          have hstep_not_init : step ∉ initialStepsOf spec :=
            not_mem_initial_of_dependsOn hd
          cases i with
          | zero => exact absurd (by simpa using hstep) hstep_not_init
          | succ i' =>
            cases j with
            | zero => exact Nat.succ_pos i'
            | succ j' =>
              have hi' : i' < down.length := by simpa using hi
              have hj' : j' < down.length := by simpa using hj
              have hstep' : step ∈ down[i'] := by simpa using hstep
              have hdep' : dep ∈ down[j'] := by simpa using hdep
              have hlt : (reducedSpec spec (initialStepsOf spec)).steps.length
                  ≤ fuel := by
                have := reduced_length_lt spec (fun hnil => hI (by simp [hnil]))
                omega
              have hperm := aux_join_perm fuel _ down hlt hc
              have hdep_red : dep
                  ∈ stepNames (reducedSpec spec (initialStepsOf spec)) := by
                refine hperm.mem_iff.mp ?_
                exact List.mem_flatten.mpr ⟨down[j'], List.getElem_mem hj', hdep'⟩
              have hdep_not_init : dep ∉ initialStepsOf spec := by
                rw [reduced_stepNames] at hdep_red
                have := (List.mem_filter.mp hdep_red).2
                simpa using this
              have hstep_names : step ∈ stepNames spec :=
                mem_stepNames_of_dependsOn hv hd
              have hstep_red : step
                  ∈ stepNames (reducedSpec spec (initialStepsOf spec)) := by
                rw [reduced_stepNames]
                exact List.mem_filter.mpr ⟨hstep_names, by simpa using hstep_not_init⟩
              have hd' : dependsOn (reducedSpec spec (initialStepsOf spec)) step dep := by
                unfold dependsOn
                rw [reduced_lookup spec (initialStepsOf spec) step hstep_red]
                simp only [Option.getD_some]
                exact List.mem_filter.mpr ⟨hd, by simpa using hdep_not_init⟩
              have := ih (reducedSpec spec (initialStepsOf spec)) down hlt
                (validate_reduced hv) hc step dep hd' i' j' hi' hj' hstep' hdep'
              omega

theorem chain_edge_head {R : String → String → Prop} {a b : String} {m : List String}
    (h : List.Chain R a (m ++ [b])) : ∃ c, R a c := by
  cases m with
  | nil => rw [List.nil_append] at h; exact ⟨b, (List.chain_cons.mp h).1⟩
  | cons x t => rw [List.cons_append] at h; exact ⟨x, (List.chain_cons.mp h).1⟩

theorem edge_preserved {spec : FlowSpecification}
    (hv : ValidateSpecification spec = .ok ()) {x y : String}
    (hxy : dependsOn spec x y) (hy : ∃ z, dependsOn spec y z) :
    dependsOn (reducedSpec spec (initialStepsOf spec)) x y := by
  obtain ⟨z, hyz⟩ := hy
  have hx_not : x ∉ initialStepsOf spec := not_mem_initial_of_dependsOn hxy
  have hy_not : y ∉ initialStepsOf spec := not_mem_initial_of_dependsOn hyz
  have hx_names : x ∈ stepNames spec := mem_stepNames_of_dependsOn hv hxy
  have hx_red : x ∈ stepNames (reducedSpec spec (initialStepsOf spec)) := by
    rw [reduced_stepNames]
    exact List.mem_filter.mpr ⟨hx_names, by simpa using hx_not⟩
  unfold dependsOn
  rw [reduced_lookup spec (initialStepsOf spec) x hx_red]
  simp only [Option.getD_some]
  exact List.mem_filter.mpr ⟨hxy, by simpa using hy_not⟩

theorem chain_preserved {spec : FlowSpecification}
    (hv : ValidateSpecification spec = .ok ()) :
    ∀ (m : List String) (a b : String),
      List.Chain (dependsOn spec) a (m ++ [b]) →
      (∃ c, dependsOn spec b c) →
      List.Chain (dependsOn (reducedSpec spec (initialStepsOf spec))) a (m ++ [b]) := by
  intro m
  induction m with
  | nil =>
    intro a b h hb
    rw [List.nil_append] at h ⊢
    have h1 := List.chain_cons.mp h
    exact List.chain_cons.mpr ⟨edge_preserved hv h1.1 hb, List.Chain.nil⟩
  | cons x t ih =>
    intro a b h hb
    rw [List.cons_append] at h ⊢
    have h1 := List.chain_cons.mp h
    have hx_out : ∃ c, dependsOn spec x c := chain_edge_head h1.2
    exact List.chain_cons.mpr ⟨edge_preserved hv h1.1 hx_out, ih x b h1.2 hb⟩

theorem hasCycle_reduced {spec : FlowSpecification}
    (hv : ValidateSpecification spec = .ok ()) (h : hasCycle spec) :
    hasCycle (reducedSpec spec (initialStepsOf spec)) := by
  obtain ⟨a, l, hchain⟩ := h
  exact ⟨a, l, chain_preserved hv l a a hchain (chain_edge_head hchain)⟩

theorem cycle_steps_nonempty {spec : FlowSpecification}
    (hv : ValidateSpecification spec = .ok ()) (h : hasCycle spec) :
    spec.steps.length ≠ 0 := by
  obtain ⟨a, l, hchain⟩ := h
  obtain ⟨c, hac⟩ := chain_edge_head hchain
  have hmem : a ∈ stepNames spec := mem_stepNames_of_dependsOn hv hac
  intro h0
  rw [stepNames, List.length_eq_zero.mp h0] at hmem
  simp at hmem

theorem aux_cyclic : ∀ (fuel : Nat) (spec : FlowSpecification),
    spec.steps.length ≤ fuel →
    ValidateSpecification spec = .ok () →
    hasCycle spec →
    calculateStagesAux fuel spec = ([], some FlowError.cyclicDependency) := by
  intro fuel
  induction fuel with
  | zero =>
    intro spec hle hv hcyc
    exact absurd (Nat.le_zero.mp hle) (cycle_steps_nonempty hv hcyc)
  | succ fuel ih =>
    intro spec hle hv hcyc
    have h0 : ¬ spec.steps.length = 0 := cycle_steps_nonempty hv hcyc
    rw [calculateStagesAux, if_neg h0]
    by_cases hI : (initialStepsOf spec).length = 0
    · rw [if_pos hI]
    · rw [if_neg hI]
      have hlt : (reducedSpec spec (initialStepsOf spec)).steps.length ≤ fuel := by
        have := reduced_length_lt spec (fun hnil => hI (by simp [hnil]))
        omega
      rw [ih (reducedSpec spec (initialStepsOf spec)) hlt (validate_reduced hv)
        (hasCycle_reduced hv hcyc)]

theorem noDeps_false_clauses {spec : FlowSpecification} {s : String}
    (hno : noDeps spec s = false) :
    ∃ deps, spec.dependencies.lookup s = some deps ∧ deps ≠ [] := by
  unfold noDeps at hno
  cases hl : spec.dependencies.lookup s with
  | none => rw [hl] at hno; simp at hno
  | some deps =>
    rw [hl] at hno
    have hno' : (deps.length == 0) = false := hno
    refine ⟨deps, rfl, ?_⟩
    intro h'
    rw [h'] at hno'
    simp at hno'

theorem nextStep_spec {spec : FlowSpecification}
    (hv : ValidateSpecification spec = .ok ()) {s : String}
    (hno : noDeps spec s = false) :
    dependsOn spec s (nextStep spec s) ∧ nextStep spec s ∈ stepNames spec := by
  obtain ⟨deps, hl, hdne⟩ := noDeps_false_clauses hno
  have hmem : nextStep spec s ∈ deps := by
    unfold nextStep
    rw [hl]
    simpa using List.head!_mem_self hdne
  have hdep : dependsOn spec s (nextStep spec s) := by
    unfold dependsOn
    rw [hl]
    simpa using hmem
  exact ⟨hdep, dep_mem_stepNames hv hdep⟩

theorem chain_nextStep (spec : FlowSpecification)
    (hstep : ∀ s ∈ stepNames spec,
      dependsOn spec s (nextStep spec s) ∧ nextStep spec s ∈ stepNames spec) :
    ∀ (m : Nat) (y : String), y ∈ stepNames spec →
      List.Chain (dependsOn spec) y
        (List.map (fun i => (nextStep spec)^[i + 1] y) (List.range m)) := by
  intro m
  induction m with
  | zero =>
    intro y _
    simp
  | succ m ih =>
    intro y hy
    rw [List.range_succ_eq_map, List.map_cons, List.map_map]
    refine List.Chain.cons (hstep y hy).1 ?_
    have htail : List.map ((fun i => (nextStep spec)^[i + 1] y) ∘ Nat.succ)
        (List.range m)
        = List.map (fun i => (nextStep spec)^[i + 1] (nextStep spec y))
            (List.range m) := by
      refine List.map_congr_left fun i _ => ?_
      show (nextStep spec)^[i + 1 + 1] y = _
      rw [Function.iterate_succ_apply (nextStep spec) (i + 1) y]
    rw [htail]
    exact ih (nextStep spec y) (hstep y hy).2

theorem cycle_of_all_noDeps (spec : FlowSpecification)
    (hv : ValidateSpecification spec = .ok ())
    (h0 : spec.steps.length ≠ 0)
    (hall : ∀ s ∈ stepNames spec, noDeps spec s = false) :
    hasCycle spec := by
  have hne : stepNames spec ≠ [] := by
    intro h
    apply h0
    have := congrArg List.length h
    simpa [stepNames] using this
  obtain ⟨x₀, hx₀⟩ := List.exists_mem_of_ne_nil _ hne
  have hstep : ∀ s ∈ stepNames spec,
      dependsOn spec s (nextStep spec s) ∧ nextStep spec s ∈ stepNames spec :=
    fun s hs => nextStep_spec hv (hall s hs)
  have hiter : ∀ n, (nextStep spec)^[n] x₀ ∈ stepNames spec := by
    intro n
    induction n with
    | zero => simpa using hx₀
    | succ n ih =>
      rw [Function.iterate_succ_apply']
      exact (hstep _ ih).2
  have key : ∀ a b : Nat, a < b →
      (nextStep spec)^[a] x₀ = (nextStep spec)^[b] x₀ → hasCycle spec := by
    intro a b hab hiterEq
    obtain ⟨m', hm'⟩ : ∃ m', b - a = m' + 1 := ⟨b - a - 1, by omega⟩
    have hym : (nextStep spec)^[a] x₀ ∈ stepNames spec := hiter a
    have hcycEq : (nextStep spec)^[m' + 1] ((nextStep spec)^[a] x₀)
        = (nextStep spec)^[a] x₀ := by
      rw [← Function.iterate_add_apply]
      have hba : m' + 1 + a = b := by omega
      rw [hba, ← hiterEq]
    have hchain := chain_nextStep spec hstep (m' + 1) ((nextStep spec)^[a] x₀) hym
    rw [List.range_succ, List.map_append] at hchain
    have hsing : List.map (fun i => (nextStep spec)^[i + 1] ((nextStep spec)^[a] x₀))
        [m'] = [(nextStep spec)^[m' + 1] ((nextStep spec)^[a] x₀)] := rfl
    rw [hsing, hcycEq] at hchain
    exact ⟨(nextStep spec)^[a] x₀, _, hchain⟩
  set N := (stepNames spec).toFinset.card with hN
  obtain ⟨i, -, j, -, hij, heq⟩ :=
    Finset.exists_ne_map_eq_of_card_lt_of_maps_to
      (s := (Finset.univ : Finset (Fin (N + 1))))
      (t := (stepNames spec).toFinset)
      (by simp [Finset.card_univ])
      (f := fun i : Fin (N + 1) => (nextStep spec)^[i.val] x₀)
      (fun a _ => List.mem_toFinset.mpr (hiter a.val))
  rcases Nat.lt_or_ge i.val j.val with hlt | hge
  · exact key i.val j.val hlt heq
  · have hlt' : j.val < i.val := by
      rcases Nat.eq_or_lt_of_le hge with heq' | hlt'
    -- i.val = j.val contradicts i ≠ j
      · exact absurd (Fin.ext heq'.symm) hij
      · exact hlt'
    exact key j.val i.val hlt' heq.symm

theorem no_initial_cycle (spec : FlowSpecification)
    (hv : ValidateSpecification spec = .ok ())
    (h0 : spec.steps.length ≠ 0)
    (hI : initialStepsOf spec = []) : hasCycle spec := by
  refine cycle_of_all_noDeps spec hv h0 fun s hs => ?_
  have := List.filter_eq_nil_iff.mp hI s hs
  simpa using this

theorem reduced_edge_sub (spec : FlowSpecification) (I : List String)
    {x y : String} (h : dependsOn (reducedSpec spec I) x y) :
    dependsOn spec x y := by
  unfold dependsOn at h ⊢
  cases hl : (reducedSpec spec I).dependencies.lookup x with
  | none => rw [hl] at h; simp at h
  | some l =>
    rw [hl] at h
    simp only [Option.getD_some] at h
    have hmem := mem_of_lookup_eq_some hl
    dsimp only [reducedSpec] at hmem
    obtain ⟨q, hq, heq⟩ := List.mem_map.mp hmem
    rw [Prod.mk.injEq] at heq
    rw [← heq.2] at h
    rw [← heq.1]
    exact List.mem_of_mem_filter h

theorem hasCycle_of_reducedCycle (spec : FlowSpecification) (I : List String)
    (h : hasCycle (reducedSpec spec I)) : hasCycle spec := by
  obtain ⟨a, l, hc⟩ := h
  exact ⟨a, l, hc.imp fun _ _ => reduced_edge_sub spec I⟩

theorem aux_error_cycle : ∀ (fuel : Nat) (spec : FlowSpecification),
    spec.steps.length ≤ fuel →
    ValidateSpecification spec = .ok () →
    ∀ e, (calculateStagesAux fuel spec).2 = some e → hasCycle spec := by
  intro fuel
  induction fuel with
  | zero =>
    intro spec hle hv e h
    have h0 : spec.steps.length = 0 := Nat.le_zero.mp hle
    rw [calculateStagesAux, if_pos h0] at h
    cases h
  | succ fuel ih =>
    intro spec hle hv e h
    rw [calculateStagesAux] at h
    by_cases h0 : spec.steps.length = 0
    · rw [if_pos h0] at h; cases h
    · rw [if_neg h0] at h
      by_cases hI : (initialStepsOf spec).length = 0
      · exact no_initial_cycle spec hv h0 (List.length_eq_zero.mp hI)
      · rw [if_neg hI] at h
        rcases hc : calculateStagesAux fuel (reducedSpec spec (initialStepsOf spec))
          with ⟨down, e'⟩
        rw [hc] at h
        cases e' with
        | none => cases h
        | some e₀ =>
          have hlt : (reducedSpec spec (initialStepsOf spec)).steps.length ≤ fuel := by
            have := reduced_length_lt spec (fun hnil => hI (by simp [hnil]))
            omega
          refine hasCycle_of_reducedCycle spec (initialStepsOf spec) ?_
          exact ih _ hlt (validate_reduced hv) e₀ (by rw [hc])

theorem acyclic_ok (spec : FlowSpecification)
    (hv : ValidateSpecification spec = .ok ())
    (hacyc : ¬ hasCycle spec) :
    ∃ stages, CalculateStages spec = (stages, none) := by
  rcases h : CalculateStages spec with ⟨stages, e⟩
  cases e with
  | none => exact ⟨stages, rfl⟩
  | some e₀ =>
    refine absurd (aux_error_cycle spec.steps.length spec (Nat.le_refl _) hv e₀ ?_) hacyc
    rw [show calculateStagesAux spec.steps.length spec = (stages, some e₀) from h]


/-- Claim C1: for every flow specification accepted by validation whose
dependency graph is acyclic, `CalculateStages` returns a stage list without
error, and in it every step appears in a strictly later stage than every
step it depends on: whenever `step` depends on `dep`, the stage index of
`dep` is strictly less than the stage index of `step`. -/
theorem CalculateStages_stage_order (spec : FlowSpecification)
    (hv : ValidateSpecification spec = .ok ())
    (hacyc : ¬ hasCycle spec) :
    ∃ stages, CalculateStages spec = (stages, none)
      ∧ ∀ step dep, dependsOn spec step dep →
        ∀ i j, ∀ (hi : i < stages.length) (hj : j < stages.length),
          step ∈ stages[i] → dep ∈ stages[j] → j < i := by
  obtain ⟨stages, hok⟩ := acyclic_ok spec hv hacyc
  exact ⟨stages, hok,
    fun step dep hd i j hi hj hstep hdep =>
      aux_stage_order spec.steps.length spec stages (Nat.le_refl _) hv hok
        step dep hd i j hi hj hstep hdep⟩

theorem CalculateStages_stage_order_witness :
    (ValidateSpecification diamondSpec = .ok () ∧ ¬ hasCycle diamondSpec) ∧
      ∃ stages, CalculateStages diamondSpec = (stages, none)
        ∧ ∀ step dep, dependsOn diamondSpec step dep →
          ∀ i j, ∀ (hi : i < stages.length) (hj : j < stages.length),
            step ∈ stages[i] → dep ∈ stages[j] → j < i := by
  have hacyc : ¬ hasCycle diamondSpec := fun hcyc => by
    have h := aux_cyclic diamondSpec.steps.length diamondSpec (Nat.le_refl _)
      rfl hcyc
    exact absurd h (by decide)
  exact ⟨⟨rfl, hacyc⟩, CalculateStages_stage_order diamondSpec rfl hacyc⟩

/-- Claim C2: for every flow specification accepted by validation whose
dependency graph is acyclic (with the Go-map invariant that step names are
distinct), `CalculateStages` succeeds and the stages partition the step set:
the concatenation of the stages is a permutation of the step names (so their
union is exactly the step set and no step appears twice), and distinct
stages are pairwise disjoint. -/
theorem CalculateStages_partition (spec : FlowSpecification)
    (hnd : (stepNames spec).Nodup)
    (hv : ValidateSpecification spec = .ok ())
    (hacyc : ¬ hasCycle spec) :
    ∃ stages, CalculateStages spec = (stages, none)
      ∧ stages.flatten.Perm (stepNames spec)
      ∧ stages.Pairwise List.Disjoint := by
  obtain ⟨stages, hok⟩ := acyclic_ok spec hv hacyc
  have hperm := aux_join_perm spec.steps.length spec stages (Nat.le_refl _) hok
  have hnodup : stages.flatten.Nodup := hperm.symm.nodup hnd
  exact ⟨stages, hok, hperm, (List.nodup_flatten.mp hnodup).2⟩

theorem CalculateStages_partition_witness :
    ((stepNames diamondSpec).Nodup ∧ ValidateSpecification diamondSpec = .ok ()
        ∧ ¬ hasCycle diamondSpec) ∧
      ∃ stages, CalculateStages diamondSpec = (stages, none)
        ∧ stages.flatten.Perm (stepNames diamondSpec)
        ∧ stages.Pairwise List.Disjoint := by
  have hacyc : ¬ hasCycle diamondSpec := fun hcyc => by
    have h := aux_cyclic diamondSpec.steps.length diamondSpec (Nat.le_refl _)
      rfl hcyc
    exact absurd h (by decide)
  exact ⟨⟨by decide, rfl, hacyc⟩,
    CalculateStages_partition diamondSpec (by decide) rfl hacyc⟩

/-- Claim C3: for every flow specification accepted by validation whose
dependency graph contains a directed cycle (a self-dependency included),
`CalculateStages` fails with the cyclic-dependency error and returns the
empty stage list. -/
theorem CalculateStages_cyclic (spec : FlowSpecification)
    (hv : ValidateSpecification spec = .ok ()) (hcyc : hasCycle spec) :
    CalculateStages spec = ([], some FlowError.cyclicDependency) :=
  aux_cyclic spec.steps.length spec (Nat.le_refl _) hv hcyc

theorem CalculateStages_cyclic_witness :
    (ValidateSpecification mutualCycleSpec = .ok () ∧ hasCycle mutualCycleSpec) ∧
      CalculateStages mutualCycleSpec = ([], some FlowError.cyclicDependency) := by
  have hchain : List.Chain (dependsOn mutualCycleSpec) "a" (["b"] ++ ["a"]) :=
    List.Chain.cons (by decide) (List.Chain.cons (by decide) List.Chain.nil)
  exact ⟨⟨rfl, ⟨"a", ["b"], hchain⟩⟩,
    CalculateStages_cyclic mutualCycleSpec rfl ⟨"a", ["b"], hchain⟩⟩

/-! ### Theorems about the stage supervision loop -/

/-- Claim C4 (amended): when some container of a stage exits with a non-zero
code or its inspection errors, `flows.Execute` fails the flow immediately on
the first failing step it observes in iteration order, reporting only that
step and its exit code: the steps before it (all of which exited 0) and the
failing step itself are the only containers awaited, and no composite error
over the remaining failures is produced. -/
theorem waitForStage_first_failure (inspect : String → InspectResult)
    (pre post : List String) (s : String)
    (hpre : ∀ x ∈ pre, inspect x = .exited 0)
    (hfail : ∀ c : Int, inspect s = .exited c → c ≠ 0) :
    waitForStage inspect (pre ++ s :: post)
      = ((match inspect s with
          | .err => StepOutcome.inspectError s
          | .exited c => StepOutcome.nonZeroExit s c), pre ++ [s]) := by
  induction pre with
  | nil =>
    cases hs : inspect s with
    | err => simp [waitForStage, hs]
    | exited c =>
      have hc : c ≠ 0 := hfail c hs
      simp [waitForStage, hs, hc]
  | cons x t ih =>
    have hx : inspect x = .exited 0 := hpre x (List.mem_cons_self x t)
    have ht : ∀ y ∈ t, inspect y = .exited 0 :=
      fun y hy => hpre y (List.mem_cons_of_mem x hy)
    have hrec := ih ht
    simp [waitForStage, hx, hrec]

theorem waitForStage_first_failure_witness :
    (∀ x ∈ ["s0"],
        (fun u => if u = "s0" then InspectResult.exited 0 else InspectResult.exited 3) x
          = InspectResult.exited 0) ∧
      waitForStage
          (fun u => if u = "s0" then InspectResult.exited 0 else InspectResult.exited 3)
          (["s0"] ++ "s1" :: ["s2"])
        = (StepOutcome.nonZeroExit "s1" 3, ["s0", "s1"]) :=
  ⟨by decide,
    waitForStage_first_failure
      (fun u => if u = "s0" then InspectResult.exited 0 else InspectResult.exited 3)
      ["s0"] ["s2"] "s1" (by decide)
      (by
        intro c hc
        have hc' : InspectResult.exited 3 = InspectResult.exited c := hc
        injection hc' with h
        omega)⟩

/-- Claim C4 counterexample: in a stage of two steps whose containers exit
with codes 1 and 2, `flows.Execute` returns after awaiting only the first
step, with an error naming only that step — it does not wait for the second
container and does not enumerate its failure, so the claimed
collect-and-aggregate behaviour does not hold of this code. -/
theorem waitForStage_no_composite_counterexample :
    waitForStage twoFailuresInspect ["s1", "s2"]
        = (StepOutcome.nonZeroExit "s1" 1, ["s1"]) ∧
      twoFailuresInspect "s2" = InspectResult.exited 2 ∧
      ¬ ∀ (inspect : String → InspectResult) (stage : List String),
          (∃ x ∈ stage, inspect x ≠ InspectResult.exited 0) →
          (waitForStage inspect stage).2 = stage := by
  refine ⟨by decide, by decide, ?_⟩
  intro hall
  have h2 := hall twoFailuresInspect ["s1", "s2"] ⟨"s1", by decide, by decide⟩
  rw [show waitForStage twoFailuresInspect ["s1", "s2"]
      = (StepOutcome.nonZeroExit "s1" 1, ["s1"]) by decide] at h2
  exact absurd h2 (by decide)

/-! ### Theorems about the effect order of `components.Execute` -/

/-- Claim C5 (amended): whenever `components.Execute` issues the
`ContainerStart` call — in particular in every successful execution, and
whenever `ContainerStart` fails — the `Execution` row was already inserted:
the effect trace is exactly create, insert, start in that order, and the row
exists when the function returns.  (If the insert itself fails after
creation, the container is never started, so a running container is always
recorded; but in that one case no row exists, which is the corner the
original claim overstates.) -/
theorem execute_insert_before_start (c : ExecuteCalls)
    (h : ExecEvent.containerStart ∈ executeTrace c) :
    executeTrace c
        = [ExecEvent.containerCreate, ExecEvent.insertExecution, ExecEvent.containerStart]
      ∧ executionRowExists c = true := by
  unfold executeTrace at h ⊢
  unfold executionRowExists
  split_ifs at h ⊢ <;> simp_all

theorem execute_insert_before_start_witness :
    ExecEvent.containerStart ∈ executeTrace allOkCalls ∧
      (executeTrace allOkCalls
          = [ExecEvent.containerCreate, ExecEvent.insertExecution,
              ExecEvent.containerStart]
        ∧ executionRowExists allOkCalls = true) :=
  ⟨by decide, execute_insert_before_start allOkCalls (by decide)⟩

/-- Claim C5 counterexample: when the execution-row insert fails after a
successful container creation, `ContainerStart` is never reached — yet no
`Execution` row exists (the insert's transaction rolled back), contradicting
the claim that the row still exists whenever `ContainerStart` is never
reached after creation. -/
theorem execute_insert_counterexample :
    executeTrace insertFailsCalls
        = [ExecEvent.containerCreate, ExecEvent.insertExecution]
      ∧ ExecEvent.containerStart ∉ executeTrace insertFailsCalls
      ∧ executionRowExists insertFailsCalls = false := by
  decide


/-! ### Theorems about the container environment construction -/

theorem lookup_cons_beq_true {k' q1 : String} {q2 : String}
    {es : List (String × String)} (h : (k' == q1) = true) :
    ((q1, q2) :: es).lookup k' = some q2 := by
  rw [List.lookup_cons, h]

theorem lookup_cons_beq_false {k' q1 : String} {q2 : String}
    {es : List (String × String)} (h : (k' == q1) = false) :
    ((q1, q2) :: es).lookup k' = es.lookup k' := by
  rw [List.lookup_cons, h]

theorem lookup_map_replace (t : List (String × String)) (k v k' : String)
    (hne : k' ≠ k) :
    (t.map fun q => if q.1 == k then (k, v) else q).lookup k' = t.lookup k' := by
  induction t with
  | nil => rfl
  | cons q r ih =>
    obtain ⟨q1, q2⟩ := q
    dsimp only [List.map_cons]
    by_cases hq : q1 = k
    · rw [if_pos (beq_iff_eq.mpr hq)]
      rw [lookup_cons_beq_false (beq_eq_false_iff_ne.mpr hne)]
      rw [lookup_cons_beq_false (beq_eq_false_iff_ne.mpr (by rw [hq]; exact hne))]
      exact ih
    · rw [if_neg (by simp [beq_eq_false_iff_ne.mpr hq])]
      cases hk : k' == q1 with
      | true => rw [lookup_cons_beq_true hk, lookup_cons_beq_true hk]
      | false => rw [lookup_cons_beq_false hk, lookup_cons_beq_false hk]; exact ih

theorem mapInsert_lookup_any (m : List (String × String)) (k v k' : String)
    (hany : (m.any fun p => p.1 == k) = true) :
    (m.map fun q => if q.1 == k then (k, v) else q).lookup k'
      = if k' = k then some v else m.lookup k' := by
  induction m with
  | nil => simp at hany
  | cons q r ih =>
    obtain ⟨q1, q2⟩ := q
    dsimp only [List.map_cons]
    by_cases hq : q1 = k
    · rw [if_pos (beq_iff_eq.mpr hq)]
      by_cases hk' : k' = k
      · rw [if_pos hk', lookup_cons_beq_true (beq_iff_eq.mpr hk')]
      · rw [if_neg hk']
        rw [lookup_cons_beq_false (beq_eq_false_iff_ne.mpr hk')]
        rw [lookup_map_replace r k v k' hk']
        rw [lookup_cons_beq_false (beq_eq_false_iff_ne.mpr (by rw [hq]; exact hk'))]
    · have hq' : (q1 == k) = false := beq_eq_false_iff_ne.mpr hq
      have hany' : (r.any fun p => p.1 == k) = true := by
        rw [List.any_cons] at hany
        dsimp only at hany
        rw [hq', Bool.false_or] at hany
        exact hany
      rw [if_neg (by simp [hq'])]
      cases hk : k' == q1 with
      | true =>
        have hkq : k' = q1 := beq_iff_eq.mp hk
        rw [if_neg (by rw [hkq]; exact hq)]
        rw [lookup_cons_beq_true hk, lookup_cons_beq_true hk]
      | false =>
        rw [lookup_cons_beq_false hk, lookup_cons_beq_false hk]
        exact ih hany'

theorem mapInsert_lookup (m : List (String × String)) (k v k' : String) :
    (mapInsert m k v).lookup k' = if k' = k then some v else m.lookup k' := by
  unfold mapInsert
  by_cases hany : (m.any fun p => p.1 == k) = true
  · rw [if_pos hany]
    exact mapInsert_lookup_any m k v k' hany
  · rw [if_neg hany, List.lookup_append]
    by_cases hk' : k' = k
    · have hnone : m.lookup k' = none := by
        rw [List.lookup_eq_none_iff]
        intro p hp
        rw [bne_iff_ne]
        intro he'
        exact hany (List.any_eq_true.mpr
          ⟨p, hp, beq_iff_eq.mpr (by rw [← he', hk'])⟩)
      rw [hnone, if_pos hk', Option.none_or,
        lookup_cons_beq_true (beq_iff_eq.mpr hk')]
    · rw [if_neg hk',
        lookup_cons_beq_false (beq_eq_false_iff_ne.mpr hk'), List.lookup_nil,
        Option.or_none]

theorem mapInsert_map_fst (m : List (String × String)) (k v : String) :
    (mapInsert m k v).map Prod.fst
      = if (m.any fun p => p.1 == k) = true then m.map Prod.fst
        else m.map Prod.fst ++ [k] := by
  unfold mapInsert
  by_cases hany : (m.any fun p => p.1 == k) = true
  · rw [if_pos hany, if_pos hany, List.map_map]
    refine List.map_congr_left fun q hq => ?_
    by_cases hqk : q.1 = k
    · simp [hqk]
    · simp [hqk, beq_eq_false_iff_ne.mpr hqk]
  · rw [if_neg hany, if_neg hany]
    simp

theorem mem_mapInsert_keys (m : List (String × String)) (k v k' : String) :
    k' ∈ (mapInsert m k v).map Prod.fst ↔ k' ∈ m.map Prod.fst ∨ k' = k := by
  rw [mapInsert_map_fst]
  by_cases hany : (m.any fun p => p.1 == k) = true
  · rw [if_pos hany]
    constructor
    · exact Or.inl
    · rintro (h | rfl)
      · exact h
      · obtain ⟨p, hp, hpk⟩ := List.any_eq_true.mp hany
        exact List.mem_map.mpr ⟨p, hp, beq_iff_eq.mp hpk⟩
  · rw [if_neg hany]
    simp

theorem mapInsert_keys_nodup (m : List (String × String)) (k v : String)
    (h : (m.map Prod.fst).Nodup) : ((mapInsert m k v).map Prod.fst).Nodup := by
  rw [mapInsert_map_fst]
  by_cases hany : (m.any fun p => p.1 == k) = true
  · rw [if_pos hany]; exact h
  · rw [if_neg hany]
    refine List.Nodup.append h (List.nodup_singleton k) ?_
    intro x hx hxk
    have hxk' : x = k := by simpa using hxk
    subst hxk'
    obtain ⟨p, hp, rfl⟩ := List.mem_map.mp hx
    exact hany (List.any_eq_true.mpr ⟨p, hp, beq_iff_eq.mpr rfl⟩)

theorem foldl_mapInsert_lookup : ∀ (env : List (String × String)),
    (env.map Prod.fst).Nodup →
    ∀ (acc : List (String × String)) (k : String),
      (env.foldl (fun m p => mapInsert m p.1 p.2) acc).lookup k
        = (env.lookup k).or (acc.lookup k) := by
  intro env
  induction env with
  | nil => intro _ acc k; simp
  | cons p t ih =>
    intro he acc k
    obtain ⟨p1, p2⟩ := p
    rw [List.map_cons, List.nodup_cons] at he
    rw [List.foldl_cons]
    dsimp only
    rw [ih he.2, mapInsert_lookup]
    by_cases hk : k = p1
    · have hnone : t.lookup k = none := by
        rw [List.lookup_eq_none_iff]
        intro q hq
        rw [bne_iff_ne]
        intro he'
        exact he.1 (by rw [hk] at he'; exact he' ▸ List.mem_map.mpr ⟨q, hq, rfl⟩)
      rw [if_pos hk, hnone, Option.none_or,
        lookup_cons_beq_true (beq_iff_eq.mpr hk)]
      rfl
    · rw [if_neg hk, lookup_cons_beq_false (beq_eq_false_iff_ne.mpr hk)]

theorem foldl_mapInsert_keys_mem : ∀ (env acc : List (String × String)) (k : String),
    k ∈ (env.foldl (fun m p => mapInsert m p.1 p.2) acc).map Prod.fst
      ↔ k ∈ acc.map Prod.fst ∨ k ∈ env.map Prod.fst := by
  intro env
  induction env with
  | nil => intro acc k; simp
  | cons p t ih =>
    intro acc k
    rw [List.foldl_cons]
    rw [ih, mem_mapInsert_keys]
    simp only [List.map_cons, List.mem_cons]
    tauto

theorem foldl_mapInsert_keys_nodup : ∀ (env acc : List (String × String)),
    (acc.map Prod.fst).Nodup →
    ((env.foldl (fun m p => mapInsert m p.1 p.2) acc).map Prod.fst).Nodup := by
  intro env
  induction env with
  | nil => intro acc h; exact h
  | cons p t ih =>
    intro acc h
    rw [List.foldl_cons]
    exact ih _ (mapInsert_keys_nodup _ _ _ h)

theorem fillEnv_go : ∀ (entries : List (String × String)) (pre rest : List String),
    entries.length ≤ rest.length →
    fillEnv (pre ++ rest) pre.length entries
      = some (pre ++ entries.map envString ++ rest.drop entries.length) := by
  intro entries
  induction entries with
  | nil => intro pre rest _; simp [fillEnv]
  | cons p t ih =>
    intro pre rest hlen
    cases rest with
    | nil => simp at hlen
    | cons r rs =>
      rw [fillEnv]
      rw [if_pos (by simp only [List.length_append, List.length_cons]; omega)]
      rw [List.set_append_right _ _ (Nat.le_refl _), Nat.sub_self]
      have hset : (r :: rs).set 0 (envString p) = envString p :: rs := rfl
      rw [hset]
      have hcons : pre ++ envString p :: rs = (pre ++ [envString p]) ++ rs := by simp
      have hlen' : pre.length + 1 = (pre ++ [envString p]).length := by simp
      have hlen2 : t.length ≤ rs.length := by
        simp only [List.length_cons] at hlen
        omega
      rw [hcons, hlen', ih (pre ++ [envString p]) rs hlen2]
      simp [List.drop_succ_cons]

/-- Claim C6 (amended): for every component spec environment and caller env
mapping whose keys all occur in the spec environment (and with the Go-map
invariant that each mapping's keys are distinct), the environment array
passed to `ContainerCreate` is exactly the rendered merge of the spec env
with the caller env: the merge's keys are distinct, its key set is the union
of the two key sets, and on every key the caller's value wins over the
spec's.  (The key-containment hypothesis is forced by the out-of-range write
exhibited in the counterexample: without it no environment is passed at
all.) -/
theorem containerEnv_merges (specEnv env : List (String × String))
    (hs : (specEnv.map Prod.fst).Nodup) (he : (env.map Prod.fst).Nodup)
    (hsub : ∀ p ∈ env, p.1 ∈ specEnv.map Prod.fst) :
    containerEnv specEnv env = some ((mergedEnv specEnv env).map envString)
      ∧ ((mergedEnv specEnv env).map Prod.fst).Nodup
      ∧ (∀ k, k ∈ (mergedEnv specEnv env).map Prod.fst
          ↔ k ∈ specEnv.map Prod.fst ∨ k ∈ env.map Prod.fst)
      ∧ ∀ k, (mergedEnv specEnv env).lookup k
          = (env.lookup k).or (specEnv.lookup k) := by
  have hkeys : ∀ k, k ∈ (mergedEnv specEnv env).map Prod.fst
      ↔ k ∈ specEnv.map Prod.fst ∨ k ∈ env.map Prod.fst := by
    intro k
    unfold mergedEnv
    rw [foldl_mapInsert_keys_mem, foldl_mapInsert_keys_mem]
    simp
  have hnodup : ((mergedEnv specEnv env).map Prod.fst).Nodup := by
    unfold mergedEnv
    exact foldl_mapInsert_keys_nodup env _
      (foldl_mapInsert_keys_nodup specEnv [] (by simp))
  have hlookup : ∀ k, (mergedEnv specEnv env).lookup k
      = (env.lookup k).or (specEnv.lookup k) := by
    intro k
    unfold mergedEnv
    rw [foldl_mapInsert_lookup env he, foldl_mapInsert_lookup specEnv hs]
    simp [Option.or_none]
  have hkeys' : ∀ k, k ∈ (mergedEnv specEnv env).map Prod.fst
      ↔ k ∈ specEnv.map Prod.fst := by
    intro k
    rw [hkeys k]
    constructor
    · rintro (h | h)
      · exact h
      · obtain ⟨p, hp, rfl⟩ := List.mem_map.mp h
        exact hsub p hp
    · exact Or.inl
  have hlen : (mergedEnv specEnv env).length = specEnv.length := by
    have h1 : (mergedEnv specEnv env).map Prod.fst ⊆ specEnv.map Prod.fst :=
      fun k hk => (hkeys' k).mp hk
    have h2 : specEnv.map Prod.fst ⊆ (mergedEnv specEnv env).map Prod.fst :=
      fun k hk => (hkeys' k).mpr hk
    have hle1 := (List.subperm_of_subset hnodup h1).length_le
    have hle2 := (List.subperm_of_subset hs h2).length_le
    rw [List.length_map, List.length_map] at hle1 hle2
    omega
  refine ⟨?_, hnodup, hkeys, hlookup⟩
  unfold containerEnv
  have hfill := fillEnv_go (mergedEnv specEnv env) []
    (List.replicate specEnv.length "") (by rw [List.length_replicate]; omega)
  rw [List.nil_append, List.length_nil] at hfill
  rw [hfill, List.nil_append]
  have hdrop : (List.replicate specEnv.length "").drop
      (mergedEnv specEnv env).length = [] := by
    rw [List.drop_eq_nil_iff, List.length_replicate, hlen]
  rw [hdrop, List.append_nil]

theorem containerEnv_merges_witness :
    (([("B", "2"), ("A", "0")] : List (String × String)).map Prod.fst).Nodup ∧
      containerEnv [("B", "2"), ("A", "0")] [("A", "1")] = some ["B=2", "A=1"] :=
  ⟨by decide,
    (containerEnv_merges [("B", "2"), ("A", "0")] [("A", "1")]
      (by decide) (by decide) (by decide)).1⟩

/-- Claim C6 counterexample: with an empty spec `run.env` and the caller env
containing the single novel binding `A=1`, the merged map is nonempty while
`containerConfig.Env` was allocated with length 0, so the indexed write is
out of range (Go panics) and no environment is passed to the container —
the claim fails for caller mappings with keys outside the spec env. -/
theorem containerEnv_counterexample :
    containerEnv [] [("A", "1")] = none
      ∧ mergedEnv [] [("A", "1")] = [("A", "1")] := by
  decide

/-- Claim C10: the environment array of `components.Execute` is allocated
with length `len(specification.Run.Env)`, but the loop writes one entry per
key of the merged environment; with a caller env key that does not occur in
the spec env the merged map is strictly larger than the allocation and the
indexed write at position `len(spec.Run.Env)` is out of bounds, so the
claimed in-bounds property fails — evaluated here at the failing input
`spec.Run.Env = {B:2}`, caller env `{A:1}`. -/
theorem envArray_out_of_bounds :
    (List.replicate ([("B", "2")] : List (String × String)).length "").length
        < (mergedEnv [("B", "2")] [("A", "1")]).length
      ∧ containerEnv [("B", "2")] [("A", "1")] = none := by
  decide

/-! ### The executions schema versus `InsertExecution` -/

/-- Claim C7: the `executions` table created by `createTables` has columns
`(id, execution_type, target_id, created_at)`, not the
`(id, build_id, component_id, created_at, flow_id)` layout the design
document specifies, so the INSERT statements used by `InsertExecution` name
columns (`build_id`, `component_id`, `flow_id`) that do not exist in the
freshly created schema and cannot succeed against it — while both succeed
against the specified layout. -/
theorem insertExecution_schema_mismatch :
    insertAccepted executionsTableColumns insertExecutionWithNoFlowIDColumns = false
      ∧ insertAccepted executionsTableColumns insertExecutionColumns = false
      ∧ ("build_id" ∈ insertExecutionWithNoFlowIDColumns
          ∧ ∀ t ∈ executionsTableColumns, t.1 ≠ "build_id")
      ∧ insertAccepted specExecutionsTableColumns insertExecutionWithNoFlowIDColumns
          = true
      ∧ insertAccepted specExecutionsTableColumns insertExecutionColumns = true := by
  decide

/-! ### Environment substitution -/

/-- Claim C8: for every input string, `MaterializeEnv` returns the value of
the host environment variable named by the remainder of the string when the
string begins with the literal prefix `env:` (the empty string when the
variable is unset, as `os.Getenv` renders it), and returns the input
unchanged otherwise. -/
theorem MaterializeEnv_spec (getenv : List Char → Option (List Char))
    (s : List Char) :
    (∀ rest, s = SpecialPrefixEnv ++ rest →
        MaterializeEnv getenv s = (getenv rest).getD [])
      ∧ ((¬ ∃ rest, s = SpecialPrefixEnv ++ rest) →
        MaterializeEnv getenv s = s) := by
  constructor
  · rintro rest rfl
    unfold MaterializeEnv
    rw [if_pos ⟨by simp, List.take_left SpecialPrefixEnv rest⟩]
    rw [List.drop_left]
  · intro hno
    unfold MaterializeEnv
    rw [if_neg]
    rintro ⟨hlen, htake⟩
    refine hno ⟨s.drop SpecialPrefixEnv.length, ?_⟩
    conv_lhs => rw [← List.take_append_drop SpecialPrefixEnv.length s]
    rw [htake]

theorem MaterializeEnv_spec_witness :
    (['e', 'n', 'v', ':', 'H', 'O', 'M', 'E']
        = SpecialPrefixEnv ++ ['H', 'O', 'M', 'E']) ∧
      MaterializeEnv
          (fun n => if n = ['H', 'O', 'M', 'E'] then some ['x'] else none)
          ['e', 'n', 'v', ':', 'H', 'O', 'M', 'E']
        = ['x'] ∧
      MaterializeEnv
          (fun n => if n = ['H', 'O', 'M', 'E'] then some ['x'] else none)
          ['p', 'l', 'a', 'i', 'n']
        = ['p', 'l', 'a', 'i', 'n'] := by
  refine ⟨by decide, ?_, ?_⟩
  · rw [(MaterializeEnv_spec
        (fun n => if n = ['H', 'O', 'M', 'E'] then some ['x'] else none)
        ['e', 'n', 'v', ':', 'H', 'O', 'M', 'E']).1
      ['H', 'O', 'M', 'E'] (by decide)]
    rfl
  · refine (MaterializeEnv_spec
        (fun n => if n = ['H', 'O', 'M', 'E'] then some ['x'] else none)
        ['p', 'l', 'a', 'i', 'n']).2 ?_
    rintro ⟨rest, h⟩
    injection h with h1 h2
    exact absurd h1 (by decide)

/-! ### Latest-build selection -/

theorem laterBuild_none (b : BuildMetadata) : laterBuild none b = some b := rfl

theorem laterBuild_some (best b : BuildMetadata) :
    laterBuild (some best) b
      = if best.createdAt < b.createdAt then some b else some best := rfl

theorem foldl_laterBuild_mem : ∀ (l : List BuildMetadata)
    (acc : Option BuildMetadata) (b : BuildMetadata),
    l.foldl laterBuild acc = some b → acc = some b ∨ b ∈ l := by
  intro l
  induction l with
  | nil => intro acc b h; exact Or.inl h
  | cons x t ih =>
    intro acc b h
    rw [List.foldl_cons] at h
    rcases ih (laterBuild acc x) b h with h' | h'
    · cases acc with
      | none =>
        rw [laterBuild_none, Option.some.injEq] at h'
        exact Or.inr (h' ▸ List.mem_cons_self x t)
      | some best =>
        rw [laterBuild_some] at h'
        by_cases hlt : best.createdAt < x.createdAt
        · rw [if_pos hlt, Option.some.injEq] at h'
          exact Or.inr (h' ▸ List.mem_cons_self x t)
        · rw [if_neg hlt] at h'
          exact Or.inl h'
    · exact Or.inr (List.mem_cons_of_mem x h')

theorem foldl_laterBuild_ge : ∀ (l : List BuildMetadata)
    (acc : Option BuildMetadata) (b : BuildMetadata),
    l.foldl laterBuild acc = some b →
    (∀ a, acc = some a → a.createdAt ≤ b.createdAt)
      ∧ ∀ x ∈ l, x.createdAt ≤ b.createdAt := by
  intro l
  induction l with
  | nil =>
    intro acc b h
    rw [List.foldl_nil] at h
    refine ⟨fun a ha => ?_, by simp⟩
    rw [ha, Option.some.injEq] at h
    rw [h]
  | cons x t ih =>
    intro acc b h
    rw [List.foldl_cons] at h
    obtain ⟨hacc', hall⟩ := ih (laterBuild acc x) b h
    have hx : x.createdAt ≤ b.createdAt := by
      cases acc with
      | none => exact hacc' x (laterBuild_none x)
      | some best =>
        by_cases hlt : best.createdAt < x.createdAt
        · exact hacc' x (by rw [laterBuild_some, if_pos hlt])
        · have hb := hacc' best (by rw [laterBuild_some, if_neg hlt])
          omega
    refine ⟨fun a ha => ?_, fun y hy => ?_⟩
    · subst ha
      by_cases hlt : a.createdAt < x.createdAt
      · have := hacc' x (by rw [laterBuild_some, if_pos hlt])
        omega
      · exact hacc' a (by rw [laterBuild_some, if_neg hlt])
    · rcases List.mem_cons.mp hy with rfl | hyt
      · exact hx
      · exact hall y hyt

theorem foldl_laterBuild_some : ∀ (l : List BuildMetadata) (a : BuildMetadata),
    ∃ b, l.foldl laterBuild (some a) = some b := by
  intro l
  induction l with
  | nil => intro a; exact ⟨a, rfl⟩
  | cons x t ih =>
    intro a
    rw [List.foldl_cons, laterBuild_some]
    by_cases hlt : a.createdAt < x.createdAt
    · rw [if_pos hlt]; exact ih x
    · rw [if_neg hlt]; exact ih a

theorem foldl_laterBuild_nil_of_none (l : List BuildMetadata)
    (h : l.foldl laterBuild none = none) : l = [] := by
  cases l with
  | nil => rfl
  | cons x t =>
    rw [List.foldl_cons, laterBuild_none] at h
    obtain ⟨b, hb⟩ := foldl_laterBuild_some t x
    rw [hb] at h
    cases h

/-- Claim C9: for every component id with at least one build row,
`SelectMostRecentBuildForComponent` returns a build row whose
`component_id` is that id and whose `created_at` is greatest among the
component's builds; with no build row for the id it fails with
`ErrBuildNotFound`. -/
theorem SelectMostRecentBuildForComponent_spec (builds : List BuildMetadata)
    (c : String) :
    (∀ b, SelectMostRecentBuildForComponent builds c = .ok b →
        b ∈ builds ∧ b.componentID = c
          ∧ ∀ r ∈ builds, r.componentID = c → r.createdAt ≤ b.createdAt)
      ∧ ((∃ r ∈ builds, r.componentID = c) →
          ∃ b, SelectMostRecentBuildForComponent builds c = .ok b)
      ∧ ((∀ r ∈ builds, r.componentID ≠ c) →
          SelectMostRecentBuildForComponent builds c = .error .buildNotFound) := by
  refine ⟨?_, ?_, ?_⟩
  · intro b hb
    have hm : mostRecentBuildRow builds c = some b := by
      unfold SelectMostRecentBuildForComponent at hb
      cases hm' : mostRecentBuildRow builds c with
      | none => rw [hm'] at hb; cases hb
      | some b' =>
        rw [hm'] at hb
        have hb2 : (Except.ok b' : Except StateError BuildMetadata) = .ok b := hb
        have hb' : b' = b := Except.ok.inj hb2
        rw [← hb']
    unfold mostRecentBuildRow at hm
    have hmem := foldl_laterBuild_mem _ none b hm
    have hge := (foldl_laterBuild_ge _ none b hm).2
    rcases hmem with h' | h'
    · cases h'
    · have hf := List.mem_filter.mp h'
      refine ⟨hf.1, beq_iff_eq.mp hf.2, fun r hr hrc => ?_⟩
      exact hge r (List.mem_filter.mpr ⟨hr, beq_iff_eq.mpr hrc⟩)
  · rintro ⟨r, hr, hrc⟩
    cases hm : mostRecentBuildRow builds c with
    | some b =>
      refine ⟨b, ?_⟩
      unfold SelectMostRecentBuildForComponent
      rw [hm]
    | none =>
      unfold mostRecentBuildRow at hm
      have hnil := foldl_laterBuild_nil_of_none _ hm
      have hrf : r ∈ builds.filter fun b => b.componentID == c :=
        List.mem_filter.mpr ⟨hr, beq_iff_eq.mpr hrc⟩
      rw [hnil] at hrf
      cases hrf
  · intro hall
    have hfil : (builds.filter fun b => b.componentID == c) = [] := by
      rw [List.filter_eq_nil_iff]
      intro a ha
      rw [beq_iff_eq]
      exact hall a ha
    unfold SelectMostRecentBuildForComponent mostRecentBuildRow
    rw [hfil]
    rfl

theorem SelectMostRecentBuildForComponent_spec_witness :
    SelectMostRecentBuildForComponent sampleBuilds "c1"
        = .ok ⟨"shnorky/c1:200", "c1", 200⟩ ∧
      ((⟨"shnorky/c1:200", "c1", 200⟩ : BuildMetadata) ∈ sampleBuilds
        ∧ (⟨"shnorky/c1:200", "c1", 200⟩ : BuildMetadata).componentID = "c1"
        ∧ ∀ r ∈ sampleBuilds, r.componentID = "c1" →
            r.createdAt ≤ (⟨"shnorky/c1:200", "c1", 200⟩ : BuildMetadata).createdAt) :=
  ⟨rfl,
    (SelectMostRecentBuildForComponent_spec sampleBuilds "c1").1
      ⟨"shnorky/c1:200", "c1", 200⟩ rfl⟩
